import Mathlib

/-
Verification development for the go.static package: content-addressed
static asset URLs. The package reads files from a configured
http.FileSystem, fingerprints their concatenated content with MD5,
builds URLs of the shape /static/<digest>/<joined-basenames>, caches the
content keyed by the truncated digest, and serves it back with
long-lived cache headers. A second, older variant of the package (no
in-memory cache) re-reads the file from the filesystem on every request.

Strings are modelled as lists of characters (Go strings are byte
strings; all data here is ASCII). File contents are lists of byte
values (Nat). Machine arithmetic inside MD5 is Nat with explicit
reduction modulo 2^32.
-/

set_option maxRecDepth 100000

namespace Static

/-- Go strings are modelled as lists of characters. -/
abbrev Str := List Char

/-- Conversion from a Lean string literal to the model type. -/
def str (s : String) : Str := s.toList

/-- Byte values of an ASCII string, as written by io code. -/
def strBytes (s : String) : List Nat := s.toList.map Char.toNat

/- ---------------------------------------------------------------
MD5 (crypto/md5), per RFC 1321, over byte lists, with 32-bit words
represented as Nat reduced modulo 2^32.
---------------------------------------------------------------- -/

def M32 : Nat := 4294967296

def add32 (a b : Nat) : Nat := (a + b) % M32

/-- Bitwise complement of a 32-bit word. -/
def not32 (x : Nat) : Nat := M32 - 1 - x

/-- Left rotation of a 32-bit word by s bits (0 < s < 32). -/
def rotl32 (x s : Nat) : Nat := (x * 2 ^ s) % M32 + x / 2 ^ (32 - s)

/-- The 64 sine-derived additive constants of MD5. -/
def md5K : List Nat :=
  [0xd76aa478, 0xe8c7b756, 0x242070db, 0xc1bdceee,
   0xf57c0faf, 0x4787c62a, 0xa8304613, 0xfd469501,
   0x698098d8, 0x8b44f7af, 0xffff5bb1, 0x895cd7be,
   0x6b901122, 0xfd987193, 0xa679438e, 0x49b40821,
   0xf61e2562, 0xc040b340, 0x265e5a51, 0xe9b6c7aa,
   0xd62f105d, 0x02441453, 0xd8a1e681, 0xe7d3fbc8,
   0x21e1cde6, 0xc33707d6, 0xf4d50d87, 0x455a14ed,
   0xa9e3e905, 0xfcefa3f8, 0x676f02d9, 0x8d2a4c8a,
   0xfffa3942, 0x8771f681, 0x6d9d6122, 0xfde5380c,
   0xa4beea44, 0x4bdecfa9, 0xf6bb4b60, 0xbebfbc70,
   0x289b7ec6, 0xeaa127fa, 0xd4ef3085, 0x04881d05,
   0xd9d4d039, 0xe6db99e5, 0x1fa27cf8, 0xc4ac5665,
   0xf4292244, 0x432aff97, 0xab9423a7, 0xfc93a039,
   0x655b59c3, 0x8f0ccc92, 0xffeff47d, 0x85845dd1,
   0x6fa87e4f, 0xfe2ce6e0, 0xa3014314, 0x4e0811a1,
   0xf7537e82, 0xbd3af235, 0x2ad7d2bb, 0xeb86d391]

/-- The per-round left-rotation amounts of MD5. -/
def md5S : List Nat :=
  [7, 12, 17, 22, 7, 12, 17, 22, 7, 12, 17, 22, 7, 12, 17, 22,
   5, 9, 14, 20, 5, 9, 14, 20, 5, 9, 14, 20, 5, 9, 14, 20,
   4, 11, 16, 23, 4, 11, 16, 23, 4, 11, 16, 23, 4, 11, 16, 23,
   6, 10, 15, 21, 6, 10, 15, 21, 6, 10, 15, 21, 6, 10, 15, 21]

def md5F (b c d : Nat) : Nat := (b &&& c) ||| (not32 b &&& d)
def md5G (b c d : Nat) : Nat := (d &&& b) ||| (not32 d &&& c)
def md5H (b c d : Nat) : Nat := b ^^^ c ^^^ d
def md5I (b c d : Nat) : Nat := c ^^^ (b ||| not32 d)

structure MDState where
  a : Nat
  b : Nat
  c : Nat
  d : Nat

/-- Little-endian decomposition of x into n bytes. -/
def leBytes : Nat → Nat → List Nat
  | 0, _ => []
  | n + 1, x => (x % 256) :: leBytes n (x / 256)

/-- The little-endian 32-bit word of a byte list at a given offset
(missing bytes read as 0). -/
def leWord (l : List Nat) (off : Nat) : Nat :=
  l.getD off 0 + 256 * l.getD (off + 1) 0 + 65536 * l.getD (off + 2) 0 +
    16777216 * l.getD (off + 3) 0

/-- One of the 64 MD5 steps; w maps a message-word index to its value. -/
def md5Step (w : Nat → Nat) (st : MDState) (i : Nat) : MDState :=
  let f :=
    if i < 16 then md5F st.b st.c st.d
    else if i < 32 then md5G st.b st.c st.d
    else if i < 48 then md5H st.b st.c st.d
    else md5I st.b st.c st.d
  let g :=
    if i < 16 then i
    else if i < 32 then (5 * i + 1) % 16
    else if i < 48 then (3 * i + 5) % 16
    else (7 * i) % 16
  let f2 := add32 (add32 (add32 f st.a) (md5K.getD i 0)) (w g)
  ⟨st.d, add32 st.b (rotl32 f2 (md5S.getD i 0)), st.b, st.c⟩

/-- Process the 64-byte block starting at offset off. -/
def md5Block (msg : List Nat) (off : Nat) (st : MDState) : MDState :=
  let r := (List.range 64).foldl (md5Step (fun g => leWord msg (off + 4 * g))) st
  ⟨add32 st.a r.a, add32 st.b r.b, add32 st.c r.c, add32 st.d r.d⟩

/-- MD5 padding: 0x80, zeros to 56 mod 64, then the bit length as a
little-endian 64-bit number. -/
def md5Pad (msg : List Nat) : List Nat :=
  msg ++ 128 :: (List.replicate ((119 - msg.length % 64) % 64) 0 ++ leBytes 8 (8 * msg.length))

/-- The 16-byte MD5 digest of a byte list. -/
def md5Bytes (msg : List Nat) : List Nat :=
  let padded := md5Pad msg
  let st := (List.range (padded.length / 64)).foldl
    (fun st i => md5Block padded (64 * i) st)
    ⟨0x67452301, 0xefcdab89, 0x98badcfe, 0x10325476⟩
  leBytes 4 st.a ++ leBytes 4 st.b ++ leBytes 4 st.c ++ leBytes 4 st.d

def hexDigitChars : List Char := "0123456789abcdef".toList

def hexDigit (n : Nat) : Char := hexDigitChars.getD n '0'

/-- Lowercase hexadecimal rendering of a byte list, two characters per
byte, as produced by fmt.Sprintf with the x verb on the digest. -/
def bytesToHex : List Nat → Str
  | [] => []
  | b :: rest => hexDigit (b / 16) :: hexDigit (b % 16) :: bytesToHex rest

/-- The hexadecimal MD5 digest string of a byte list. -/
def md5hex (msg : List Nat) : Str := bytesToHex (md5Bytes msg)

/- ---------------------------------------------------------------
String helpers from the Go standard library, over the Str model.
---------------------------------------------------------------- -/

/-- strings.HasPrefix s pre. -/
def strStartsWith (s pre : Str) : Bool :=
  match pre, s with
  | [], _ => true
  | _ :: _, [] => false
  | p :: ps, c :: cs => p == c && strStartsWith cs ps

/-- strings.Split s "/" with a one-character separator: the list of
maximal substrings of s between occurrences of the slash. -/
def splitOnSlash : Str → List Str
  | [] => [[]]
  | c :: rest =>
    if c = '/' then [] :: splitOnSlash rest
    else
      match splitOnSlash rest with
      | [] => [[c]]
      | s :: ss => (c :: s) :: ss

/-- strings.Join: concatenate the elements, separated by sep. -/
def strJoin (sep : Str) : List Str → Str
  | [] => []
  | [x] => x
  | x :: y :: rest => x ++ sep ++ strJoin sep (y :: rest)

/-- filepath.Base for slash-separated paths: strip trailing slashes,
then keep the part after the last slash; empty input gives ".", an
all-slash input gives "/". -/
def filepathBase (p : Str) : Str :=
  if p = [] then ['.']
  else
    let p1 := (p.reverse.dropWhile (fun c => c = '/')).reverse
    let b := (p1.reverse.takeWhile (fun c => ¬ c = '/')).reverse
    if b = [] then ['/'] else b

/-- The stack pass of path.Clean over the slash-separated segments of a
path: empty and dot segments are dropped, a dotdot segment pops the
last kept segment (or is dropped at the root of a rooted path, or kept
in a relative path with nothing left to pop). -/
def cleanSegments (rooted : Bool) : List Str → List Str → List Str
  | stack, [] => stack.reverse
  | stack, s :: rest =>
    if s = [] ∨ s = ['.'] then cleanSegments rooted stack rest
    else if s = ['.', '.'] then
      match stack with
      | [] => cleanSegments rooted (if rooted then [] else [s]) rest
      | t :: ts =>
        if t = ['.', '.'] then cleanSegments rooted (s :: t :: ts) rest
        else cleanSegments rooted ts rest
    else cleanSegments rooted (s :: stack) rest

/-- The segments surviving path.Clean when no dotdot segment occurs:
empty and dot segments are dropped, the rest kept in order. -/
def cleanKeep : List Str → List Str
  | [] => []
  | s :: rest => if s = [] ∨ s = ['.'] then cleanKeep rest else s :: cleanKeep rest

/-- path.Clean, segment-based equivalent of the lexical algorithm:
replace runs of slashes by one slash, drop dot segments, resolve dotdot
segments against the preceding segment, drop dotdot at the root of a
rooted path; empty result is "." (or "/" when rooted). -/
def pathClean (p : Str) : Str :=
  match p with
  | [] => ['.']
  | c :: rest =>
    if c = '/' then
      '/' :: strJoin ['/'] (cleanSegments true [] (splitOnSlash (c :: rest)))
    else
      let segs := cleanSegments false [] (splitOnSlash (c :: rest))
      if segs = [] then ['.'] else strJoin ['/'] segs

/-- path.Join: join the non-empty elements with slashes and Clean the
result; all-empty input gives the empty string. -/
def pathJoin (elems : List Str) : Str :=
  let ne := elems.filter (fun e => !e.isEmpty)
  if ne = [] then [] else pathClean (strJoin ['/'] ne)

/- ---------------------------------------------------------------
Data model: the filesystem at the http.FileSystem interface, the cache
of resolved content, and HTTP responses.
---------------------------------------------------------------- -/

/-- A file as seen through the http.FileSystem interface: its content,
its modification time (Nat; 0 plays the role of the zero time.Time,
which precedes every real file time), whether Stat fails, whether
reading the content fails, and whether it is a directory. -/
structure FileInfo where
  content : List Nat
  modTime : Nat
  statErr : Bool
  readErr : Bool
  isDir : Bool
deriving DecidableEq

/-- The configured http.FileSystem: Open either fails (none) or yields
a file. -/
abbrev FS := Str → Option FileInfo

/-- cacheEntry: the concatenated content of a resolved URL together
with the latest modification time among its files. -/
structure CacheEntry where
  content : List Nat
  modTime : Nat
deriving DecidableEq

/-- The package-level cache map, keyed by the truncated digest. A Go
map update is modelled by consing the new binding in front; lookup
takes the first match. -/
abbrev Cache := List (Str × CacheEntry)

/-- Lookup in the cache map (first matching key). -/
def cacheLookup : Cache → Str → Option CacheEntry
  | [], _ => none
  | (k, v) :: rest, key => if k = key then some v else cacheLookup rest key

/-- An HTTP response: status code, the headers the package itself sets,
and the body bytes. http.ServeContent is modelled for an unconditional
GET request: status 200 and the full content (content-type inference
and conditional or range handling are outside the model). -/
structure Response where
  status : Nat
  headers : List (Str × Str)
  body : List Nat
deriving DecidableEq

/-- The notFound helper: 404 with no-cache headers and a fixed body. -/
def notFoundResp : Response :=
  { status := 404
    headers := [(str "Cache-Control", str "no-cache"), (str "Pragma", str "no-cache")]
    body := strBytes "static resource not found!" }

/-- The Cache-Control header written on success, from the configured
max age in seconds. -/
def cacheHeader (maxAge : Nat) : Str × Str :=
  (str "Cache-Control", str "public, max-age=" ++ Nat.toDigits 10 maxAge)

/-- Path = "/static/". -/
def Path : Str := str "/static/"

/- ---------------------------------------------------------------
static.go: the cached variant.
---------------------------------------------------------------- -/

/-- joinBasenames: the hyphen-joined base names of the inputs. -/
def joinBasenames (names : List Str) : Str :=
  strJoin ['-'] (names.map filepathBase)

/-- The loop body of CombinedURL: open, stat, and read each file in
order, accumulating the concatenated content and the maximal
modification time (md5 hashing of the stream equals hashing the
concatenation, so the digest is taken of the accumulated buffer).
Returns none when an open, stat, or read fails, mirroring the early
error returns. -/
def combinedRead (fs : FS) : List Str → List Nat → Nat → Option (List Nat × Nat)
  | [], buf, mt => some (buf, mt)
  | name :: rest, buf, mt =>
    match fs name with
    | none => none
    | some fi =>
      if fi.statErr then none
      else
        let mt2 := if mt < fi.modTime then fi.modTime else mt
        if fi.readErr then none
        else combinedRead fs rest (buf ++ fi.content) mt2

/-- CombinedURL: hash all named files and return the combined URL,
inserting the cache entry keyed by the first ten hex characters of the
digest. A none result models the ("", err) return, on which the cache
is untouched. -/
def CombinedURL (fs : FS) (cache : Cache) (names : List Str) : Option Str × Cache :=
  match combinedRead fs names [] 0 with
  | none => (none, cache)
  | some (buf, mt) =>
    let hexS := (md5hex buf).take 10
    (some (pathJoin [Path, hexS, joinBasenames names]), (hexS, ⟨buf, mt⟩) :: cache)

/-- URL: the single-file convenience form. -/
def URL (fs : FS) (cache : Cache) (name : Str) : Option Str × Cache :=
  CombinedURL fs cache [name]

/-- Handle of the cached variant: check the static path marker, split
the path, look the third segment up in the cache, and serve the cached
content with the long-lived cache header, or fall back to notFound.
The request is its URL path; the cache is returned unchanged. -/
def Handle (cache : Cache) (maxAge : Nat) (reqPath : Str) : Response × Cache :=
  if strStartsWith reqPath Path then
    let parts := splitOnSlash reqPath
    if parts.length < 3 then (notFoundResp, cache)
    else
      match cacheLookup cache (parts.getD 2 []) with
      | none => (notFoundResp, cache)
      | some ce =>
        ({ status := 200, headers := [cacheHeader maxAge], body := ce.content }, cache)
  else (notFoundResp, cache)

/- ---------------------------------------------------------------
The older variant of the package (no in-memory cache): URL hashes the
file on resolution, Handle re-opens the file named by the trailing
path segments on every request.
---------------------------------------------------------------- -/

namespace NoCache

/-- URL of the no-cache variant: open and read one file, hash it, and
join the path from the static marker, the truncated digest, and the
file name itself (not its base name). -/
def URL (fs : FS) (name : Str) : Option Str :=
  match fs name with
  | none => none
  | some fi =>
    if fi.readErr then none
    else some (pathJoin [Path, (md5hex fi.content).take 10, name])

/-- Handle of the no-cache variant: check the static marker and the
segment count, then re-open the file named by the segments after the
digest and serve its current content; missing files, stat failures and
directories give notFound. -/
def Handle (fs : FS) (maxAge : Nat) (reqPath : Str) : Response :=
  if strStartsWith reqPath Path then
    let parts := splitOnSlash reqPath
    if parts.length < 3 then notFoundResp
    else
      let newPath := strJoin ['/'] (parts.drop 3)
      match fs newPath with
      | none => notFoundResp
      | some fi =>
        if fi.statErr then notFoundResp
        else if fi.isDir then notFoundResp
        else { status := 200, headers := [cacheHeader maxAge], body := fi.content }
  else notFoundResp

end NoCache

/- ---------------------------------------------------------------
Derived notions used to state the claims.
---------------------------------------------------------------- -/

/-- A file all three filesystem operations succeed on. -/
def fileOk (fs : FS) (n : Str) : Bool :=
  match fs n with
  | some fi => !fi.statErr && !fi.readErr
  | none => false

/-- The content of a file (empty for an unopenable name). -/
def fileContent (fs : FS) (n : Str) : List Nat :=
  match fs n with
  | some fi => fi.content
  | none => []

/-- The modification time of a file (0 for an unopenable name). -/
def fileMT (fs : FS) (n : Str) : Nat :=
  match fs n with
  | some fi => fi.modTime
  | none => 0

/-- The concatenation, in list order, of the full contents of the
named files. -/
def concatContents (fs : FS) (names : List Str) : List Nat :=
  (names.map (fileContent fs)).flatten

/-- The running maximum modification time of the loop, from a given
start value. -/
def mtFold (fs : FS) (m : Nat) (names : List Str) : Nat :=
  names.foldl (fun m n => if m < fileMT fs n then fileMT fs n else m) m

/-- The latest modification time among the named files, from the zero
time. -/
def maxMT (fs : FS) (names : List Str) : Nat := mtFold fs 0 names

/-- The first ten hexadecimal characters of the MD5 digest of the
concatenated contents. -/
def digestOf (fs : FS) (names : List Str) : Str :=
  (md5hex (concatContents fs names)).take 10

/- ---------------------------------------------------------------
Helper lemmas about the string machinery.
---------------------------------------------------------------- -/

theorem splitOnSlash_ne_nil (s : Str) : splitOnSlash s ≠ [] := by
  cases s with
  | nil => simp [splitOnSlash]
  | cons c rest =>
    by_cases h : c = '/'
    · simp [splitOnSlash, h]
    · simp only [splitOnSlash, if_neg h]
      cases hs : splitOnSlash rest <;> simp

theorem splitOnSlash_append (s t : Str) :
    splitOnSlash (s ++ '/' :: t) = splitOnSlash s ++ splitOnSlash t := by
  induction s with
  | nil => simp [splitOnSlash]
  | cons c rest ih =>
    by_cases h : c = '/'
    · simp [splitOnSlash, h, ih]
    · simp only [List.cons_append, splitOnSlash, if_neg h]
      obtain ⟨s0, ss0, hs⟩ : ∃ s0 ss0, splitOnSlash rest = s0 :: ss0 := by
        cases hs : splitOnSlash rest with
        | nil => exact absurd hs (splitOnSlash_ne_nil rest)
        | cons a b => exact ⟨a, b, rfl⟩
      simp only [List.append_eq]
      rw [ih, hs]
      simp

theorem splitOnSlash_no_slash {s : Str} (h : '/' ∉ s) : splitOnSlash s = [s] := by
  induction s with
  | nil => simp [splitOnSlash]
  | cons c rest ih =>
    have hc : ¬ c = '/' := by
      intro hc
      exact h (by rw [hc]; exact List.mem_cons_self _ _)
    have hr : '/' ∉ rest := fun hr => h (List.mem_cons_of_mem _ hr)
    simp [splitOnSlash, hc, ih hr]

theorem not_slash_of_mem_splitOnSlash {s x : Str} (hx : x ∈ splitOnSlash s) : '/' ∉ x := by
  induction s generalizing x with
  | nil =>
    simp [splitOnSlash] at hx
    subst hx
    simp
  | cons c rest ih =>
    by_cases h : c = '/'
    · simp only [splitOnSlash, if_pos h] at hx
      rcases List.mem_cons.mp hx with h1 | h1
      · subst h1; simp
      · exact ih h1
    · simp only [splitOnSlash, if_neg h] at hx
      cases hs : splitOnSlash rest with
      | nil => exact absurd hs (splitOnSlash_ne_nil rest)
      | cons s0 ss0 =>
        rw [hs] at hx
        rcases List.mem_cons.mp hx with h1 | h1
        · subst h1
          intro hsl
          rcases List.mem_cons.mp hsl with h2 | h2
          · exact h h2.symm
          · exact ih (x := s0) (by rw [hs]; exact List.mem_cons_self _ _) h2
        · exact ih (by rw [hs]; exact List.mem_cons_of_mem _ h1)

theorem splitOnSlash_strJoin {l : List Str} (hl : l ≠ []) (h : ∀ x ∈ l, '/' ∉ x) :
    splitOnSlash (strJoin ['/'] l) = l := by
  induction l with
  | nil => exact absurd rfl hl
  | cons x rest ih =>
    cases rest with
    | nil =>
      show splitOnSlash (strJoin ['/'] [x]) = [x]
      rw [strJoin]
      exact splitOnSlash_no_slash (h x (List.mem_cons_self _ _))
    | cons y rest2 =>
      have he : strJoin ['/'] (x :: y :: rest2) = x ++ '/' :: strJoin ['/'] (y :: rest2) := by
        rw [strJoin]
        simp
      rw [he, splitOnSlash_append,
        splitOnSlash_no_slash (h x (List.mem_cons_self _ _)),
        ih (by simp) (fun z hz => h z (List.mem_cons_of_mem _ hz))]
      simp

theorem strStartsWith_append (p t : Str) : strStartsWith (p ++ t) p = true := by
  induction p with
  | nil => simp [strStartsWith]
  | cons c cs ih => simp [strStartsWith, ih]

theorem strStartsWith_exists {s p : Str} (h : strStartsWith s p = true) :
    ∃ t, s = p ++ t := by
  induction p generalizing s with
  | nil => exact ⟨s, rfl⟩
  | cons c cs ih =>
    cases s with
    | nil => simp [strStartsWith] at h
    | cons a as =>
      simp only [strStartsWith, Bool.and_eq_true, beq_iff_eq] at h
      obtain ⟨t, ht⟩ := ih h.2
      exact ⟨t, by simp [h.1, ht]⟩

theorem cleanSegments_nil (r : Bool) (stack : List Str) :
    cleanSegments r stack [] = stack.reverse := rfl

theorem cleanSegments_cons (r : Bool) (stack : List Str) (s : Str) (rest : List Str) :
    cleanSegments r stack (s :: rest) =
      if s = [] ∨ s = ['.'] then cleanSegments r stack rest
      else if s = ['.', '.'] then
        match stack with
        | [] => cleanSegments r (if r then [] else [s]) rest
        | t :: ts =>
          if t = ['.', '.'] then cleanSegments r (s :: t :: ts) rest
          else cleanSegments r ts rest
      else cleanSegments r (s :: stack) rest := rfl

theorem cleanKeep_nil : cleanKeep [] = [] := rfl

theorem cleanKeep_cons (s : Str) (rest : List Str) :
    cleanKeep (s :: rest) =
      if s = [] ∨ s = ['.'] then cleanKeep rest else s :: cleanKeep rest := rfl

theorem cleanSegments_no_dotdot (r : Bool) (stack segs : List Str)
    (h : ∀ s ∈ segs, s ≠ ['.', '.']) :
    cleanSegments r stack segs = stack.reverse ++ cleanKeep segs := by
  induction segs generalizing stack with
  | nil => simp [cleanSegments_nil, cleanKeep_nil]
  | cons s rest ih =>
    have hs := h s (List.mem_cons_self _ _)
    have hrest : ∀ x ∈ rest, x ≠ ['.', '.'] := fun x hx => h x (List.mem_cons_of_mem _ hx)
    by_cases h1 : s = [] ∨ s = ['.']
    · rw [cleanSegments_cons, if_pos h1, cleanKeep_cons, if_pos h1]
      exact ih _ hrest
    · rw [cleanSegments_cons, if_neg h1, if_neg hs, cleanKeep_cons, if_neg h1, ih _ hrest]
      simp

theorem mem_cleanKeep {l : List Str} {x : Str} (hx : x ∈ cleanKeep l) :
    x ∈ l ∧ x ≠ [] ∧ x ≠ ['.'] := by
  induction l with
  | nil => simp [cleanKeep_nil] at hx
  | cons s rest ih =>
    by_cases h1 : s = [] ∨ s = ['.']
    · rw [cleanKeep_cons, if_pos h1] at hx
      obtain ⟨a, b, c⟩ := ih hx
      exact ⟨List.mem_cons_of_mem _ a, b, c⟩
    · rw [cleanKeep_cons, if_neg h1] at hx
      rcases List.mem_cons.mp hx with h2 | h2
      · subst h2
        exact ⟨List.mem_cons_self _ _, fun he => h1 (Or.inl he), fun he => h1 (Or.inr he)⟩
      · obtain ⟨a, b, c⟩ := ih h2
        exact ⟨List.mem_cons_of_mem _ a, b, c⟩

theorem filepathBase_ne_nil (p : Str) : filepathBase p ≠ [] := by
  simp only [filepathBase]
  by_cases h : p = []
  · simp [h]
  · rw [if_neg h]
    split <;> simp_all

theorem joinBasenames_ne_nil {names : List Str} (h : names ≠ []) :
    joinBasenames names ≠ [] := by
  unfold joinBasenames
  cases names with
  | nil => exact absurd rfl h
  | cons n rest =>
    cases rest with
    | nil =>
      show strJoin ['-'] [filepathBase n] ≠ []
      rw [strJoin]
      exact filepathBase_ne_nil n
    | cons m rest2 =>
      show strJoin ['-'] (filepathBase n :: filepathBase m :: _) ≠ []
      rw [strJoin]
      intro he
      exact filepathBase_ne_nil n (List.append_eq_nil.mp (List.append_eq_nil.mp he).1).1

/- ---------------------------------------------------------------
Lemmas about the digest string.
---------------------------------------------------------------- -/

theorem leBytes_length (n x : Nat) : (leBytes n x).length = n := by
  induction n generalizing x with
  | zero => rfl
  | succ k ih => simp [leBytes, ih]

theorem md5Bytes_length (m : List Nat) : (md5Bytes m).length = 16 := by
  simp [md5Bytes, leBytes_length]

theorem hexDigit_mem (n : Nat) : hexDigit n ∈ hexDigitChars := by
  unfold hexDigit
  rcases Nat.lt_or_ge n hexDigitChars.length with h | h
  · rw [List.getD_eq_getElem _ _ h]
    exact List.getElem_mem h
  · rw [List.getD_eq_default _ _ h]
    decide

theorem bytesToHex_hex {l : List Nat} {c : Char} (hc : c ∈ bytesToHex l) :
    c ∈ hexDigitChars := by
  induction l with
  | nil => simp [bytesToHex] at hc
  | cons b rest ih =>
    simp only [bytesToHex, List.mem_cons] at hc
    rcases hc with h | h | h
    · subst h; exact hexDigit_mem _
    · subst h; exact hexDigit_mem _
    · exact ih h

theorem bytesToHex_length (l : List Nat) : (bytesToHex l).length = 2 * l.length := by
  induction l with
  | nil => rfl
  | cons b rest ih =>
    simp [bytesToHex, ih]
    omega

theorem md5hex_length (m : List Nat) : (md5hex m).length = 32 := by
  simp [md5hex, bytesToHex_length, md5Bytes_length]

theorem digestOf_length (fs : FS) (names : List Str) : (digestOf fs names).length = 10 := by
  simp [digestOf, List.length_take, md5hex_length]

theorem digestOf_hex {fs : FS} {names : List Str} {c : Char}
    (hc : c ∈ digestOf fs names) : c ∈ hexDigitChars :=
  bytesToHex_hex (List.take_subset _ _ hc)

theorem digestOf_no_slash (fs : FS) (names : List Str) : '/' ∉ digestOf fs names := by
  intro h
  have := digestOf_hex h
  revert this
  decide

theorem digestOf_ne_nil (fs : FS) (names : List Str) : digestOf fs names ≠ [] := by
  intro h
  have := digestOf_length fs names
  rw [h] at this
  simp at this

theorem digestOf_ne_dot (fs : FS) (names : List Str) : digestOf fs names ≠ ['.'] := by
  intro h
  have := digestOf_length fs names
  rw [h] at this
  simp at this

theorem digestOf_ne_dotdot (fs : FS) (names : List Str) : digestOf fs names ≠ ['.', '.'] := by
  intro h
  have := digestOf_length fs names
  rw [h] at this
  simp at this

/- ---------------------------------------------------------------
Lemmas about the resolution loop.
---------------------------------------------------------------- -/

theorem combinedRead_ok {fs : FS} {names : List Str} (acc : List Nat) (m : Nat)
    (h : ∀ n ∈ names, fileOk fs n = true) :
    combinedRead fs names acc m =
      some (acc ++ concatContents fs names, mtFold fs m names) := by
  induction names generalizing acc m with
  | nil => simp [combinedRead, concatContents, mtFold]
  | cons n rest ih =>
    have hn := h n (List.mem_cons_self _ _)
    have hrest : ∀ x ∈ rest, fileOk fs x = true :=
      fun x hx => h x (List.mem_cons_of_mem _ hx)
    unfold fileOk at hn
    cases hfs : fs n with
    | none => rw [hfs] at hn; simp at hn
    | some fi =>
      rw [hfs] at hn
      simp only [Bool.and_eq_true, Bool.not_eq_true'] at hn
      rw [combinedRead, hfs]
      simp only [hn.1, hn.2, Bool.false_eq_true, if_false]
      rw [ih _ _ hrest]
      simp [concatContents, fileContent, hfs, mtFold, fileMT]

theorem combinedRead_some {fs : FS} {names : List Str} {acc : List Nat} {m : Nat}
    {buf : List Nat} {mt : Nat}
    (h : combinedRead fs names acc m = some (buf, mt)) :
    buf = acc ++ concatContents fs names ∧ mt = mtFold fs m names := by
  induction names generalizing acc m with
  | nil =>
    simp only [combinedRead, Option.some.injEq, Prod.mk.injEq] at h
    simp [concatContents, mtFold, ← h.1, ← h.2]
  | cons n rest ih =>
    cases hfs : fs n with
    | none => rw [combinedRead, hfs] at h; simp at h
    | some fi =>
      rw [combinedRead, hfs] at h
      by_cases h1 : fi.statErr
      · simp [h1] at h
      · simp only [h1, Bool.false_eq_true, if_false] at h
        by_cases h2 : fi.readErr
        · simp [h2] at h
        · simp only [h2, Bool.false_eq_true, if_false] at h
          obtain ⟨hb, hm⟩ := ih h
          refine ⟨?_, ?_⟩
          · rw [hb]
            simp [concatContents, fileContent, hfs, List.append_assoc]
          · rw [hm]
            simp [mtFold, fileMT, hfs]

theorem combinedRead_bad {fs : FS} {names : List Str} (acc : List Nat) (m : Nat)
    (h : ∃ n ∈ names, fileOk fs n = false) :
    combinedRead fs names acc m = none := by
  induction names generalizing acc m with
  | nil => simp at h
  | cons n rest ih =>
    cases hfs : fs n with
    | none => rw [combinedRead, hfs]
    | some fi =>
      rw [combinedRead, hfs]
      by_cases h1 : fi.statErr
      · simp [h1]
      · simp only [h1, Bool.false_eq_true, if_false]
        by_cases h2 : fi.readErr
        · simp [h2]
        · simp only [h2, Bool.false_eq_true, if_false]
          apply ih
          obtain ⟨x, hx, hbad⟩ := h
          rcases List.mem_cons.mp hx with rfl | hx2
          · exfalso
            unfold fileOk at hbad
            rw [hfs] at hbad
            simp [h1, h2] at hbad
          · exact ⟨x, hx2, hbad⟩

/- ---------------------------------------------------------------
Lemmas about CombinedURL.
---------------------------------------------------------------- -/

theorem combinedURL_ok {fs : FS} (cache : Cache) {names : List Str}
    (h : ∀ n ∈ names, fileOk fs n = true) :
    CombinedURL fs cache names =
      (some (pathJoin [Path, digestOf fs names, joinBasenames names]),
       (digestOf fs names, ⟨concatContents fs names, maxMT fs names⟩) :: cache) := by
  unfold CombinedURL
  rw [combinedRead_ok [] 0 h]
  rfl

theorem combinedURL_some {fs : FS} {cache : Cache} {names : List Str} {url : Str}
    {c1 : Cache} (h : CombinedURL fs cache names = (some url, c1)) :
    url = pathJoin [Path, digestOf fs names, joinBasenames names] ∧
      c1 = (digestOf fs names, ⟨concatContents fs names, maxMT fs names⟩) :: cache := by
  unfold CombinedURL at h
  cases hr : combinedRead fs names [] 0 with
  | none => rw [hr] at h; simp at h
  | some p =>
    obtain ⟨buf, mt⟩ := p
    rw [hr] at h
    obtain ⟨hb, hm⟩ := combinedRead_some hr
    simp only [List.nil_append] at hb
    simp only [Prod.mk.injEq, Option.some.injEq] at h
    subst hb
    subst hm
    exact ⟨h.1.symm, h.2.symm⟩

/- ---------------------------------------------------------------
The shape of a URL built by path.Join from the static marker, a digest
and the joined base names.
---------------------------------------------------------------- -/

theorem Path_cons : Path = '/' :: (str "static" ++ ['/']) := rfl

theorem pathClean_rooted (t : Str) :
    pathClean ('/' :: t) =
      '/' :: strJoin ['/'] (cleanSegments true [] (splitOnSlash ('/' :: t))) := by
  rw [pathClean]
  simp

theorem splitOnSlash_full (d j : Str) (hd : '/' ∉ d) :
    splitOnSlash (strJoin ['/'] [Path, d, j]) =
      [] :: str "static" :: [] :: d :: splitOnSlash j := by
  have he : strJoin ['/'] [Path, d, j] = Path ++ '/' :: (d ++ '/' :: j) := by
    rw [strJoin, strJoin, strJoin]
    simp
  rw [he, splitOnSlash_append, splitOnSlash_append, splitOnSlash_no_slash hd]
  have hp : splitOnSlash Path = [[], str "static", []] := by decide
  rw [hp]
  rfl

theorem pathJoin_static {d j : Str} (hdn : d ≠ []) (hds : '/' ∉ d)
    (hd1 : d ≠ ['.']) (hd2 : d ≠ ['.', '.'])
    (hj : j ≠ []) (hdd : ['.', '.'] ∉ splitOnSlash j) :
    pathJoin [Path, d, j] =
      '/' :: strJoin ['/'] (str "static" :: d :: cleanKeep (splitOnSlash j)) := by
  have hfil : [Path, d, j].filter (fun e => !e.isEmpty) = [Path, d, j] := by
    simp [List.filter_cons, hdn, hj]
    decide
  unfold pathJoin
  rw [hfil, if_neg (by simp)]
  obtain ⟨t, ht⟩ : ∃ t, strJoin ['/'] [Path, d, j] = '/' :: t := by
    refine ⟨str "static" ++ '/' :: ('/' :: (d ++ '/' :: j)), ?_⟩
    rw [strJoin, strJoin, strJoin, Path_cons]
    simp
  rw [ht, pathClean_rooted, ← ht, splitOnSlash_full d j hds]
  rw [cleanSegments_no_dotdot]
  · rw [List.reverse_nil, List.nil_append]
    rw [cleanKeep_cons, if_pos (Or.inl rfl), cleanKeep_cons,
      if_neg (by decide), cleanKeep_cons, if_pos (Or.inl rfl), cleanKeep_cons,
      if_neg (by rintro (he | he) <;> [exact hdn he; exact hd1 he])]
  · intro s hs
    rcases List.mem_cons.mp hs with rfl | hs
    · decide
    rcases List.mem_cons.mp hs with rfl | hs
    · decide
    rcases List.mem_cons.mp hs with rfl | hs
    · decide
    rcases List.mem_cons.mp hs with rfl | hs
    · exact hd2
    · exact fun he => hdd (he ▸ hs)

theorem splitOnSlash_pathJoin_static {d j : Str} (hdn : d ≠ []) (hds : '/' ∉ d)
    (hd1 : d ≠ ['.']) (hd2 : d ≠ ['.', '.'])
    (hj : j ≠ []) (hdd : ['.', '.'] ∉ splitOnSlash j) :
    splitOnSlash (pathJoin [Path, d, j]) =
      [] :: str "static" :: d :: cleanKeep (splitOnSlash j) := by
  rw [pathJoin_static hdn hds hd1 hd2 hj hdd]
  have h0 : ('/' :: strJoin ['/'] (str "static" :: d :: cleanKeep (splitOnSlash j)) : Str)
      = [] ++ '/' :: strJoin ['/'] (str "static" :: d :: cleanKeep (splitOnSlash j)) := rfl
  rw [h0, splitOnSlash_append,
    splitOnSlash_strJoin (by simp) ?_]
  · rfl
  · intro x hx
    rcases List.mem_cons.mp hx with rfl | hx
    · decide
    rcases List.mem_cons.mp hx with rfl | hx
    · exact hds
    · exact not_slash_of_mem_splitOnSlash (mem_cleanKeep hx).1

theorem startsWith_pathJoin_static {d j : Str} (hdn : d ≠ []) (hds : '/' ∉ d)
    (hd1 : d ≠ ['.']) (hd2 : d ≠ ['.', '.'])
    (hj : j ≠ []) (hdd : ['.', '.'] ∉ splitOnSlash j) :
    strStartsWith (pathJoin [Path, d, j]) Path = true := by
  rw [pathJoin_static hdn hds hd1 hd2 hj hdd]
  have h0 : ('/' :: strJoin ['/'] (str "static" :: d :: cleanKeep (splitOnSlash j)) : Str)
      = Path ++ strJoin ['/'] (d :: cleanKeep (splitOnSlash j)) := by
    rw [strJoin, Path_cons]
    simp
  rw [h0]
  exact strStartsWith_append _ _

/-- The combined facts about a successfully produced URL, whenever the
joined base names contain no dotdot segment. -/
theorem combinedURL_parts {fs : FS} {cache : Cache} {names : List Str} {url : Str}
    {c1 : Cache} (h : CombinedURL fs cache names = (some url, c1))
    (hne : names ≠ [])
    (hdd : ['.', '.'] ∉ splitOnSlash (joinBasenames names)) :
    strStartsWith url Path = true ∧
      splitOnSlash url =
        [] :: str "static" :: digestOf fs names ::
          cleanKeep (splitOnSlash (joinBasenames names)) ∧
      c1 = (digestOf fs names, ⟨concatContents fs names, maxMT fs names⟩) :: cache := by
  obtain ⟨hu, hc⟩ := combinedURL_some h
  subst hu
  exact ⟨startsWith_pathJoin_static (digestOf_ne_nil fs names) (digestOf_no_slash fs names)
      (digestOf_ne_dot fs names) (digestOf_ne_dotdot fs names) (joinBasenames_ne_nil hne) hdd,
    splitOnSlash_pathJoin_static (digestOf_ne_nil fs names) (digestOf_no_slash fs names)
      (digestOf_ne_dot fs names) (digestOf_ne_dotdot fs names) (joinBasenames_ne_nil hne) hdd,
    hc⟩

/- ---------------------------------------------------------------
Concrete filesystems used by witnesses and counterexamples.
---------------------------------------------------------------- -/

/-- Two files a.js and b.js with contents "1" and "2". -/
def wfs3 : FS := fun n =>
  if n = str "a.js" then some ⟨strBytes "1", 3, false, false, false⟩
  else if n = str "b.js" then some ⟨strBytes "2", 7, false, false, false⟩
  else none

/-- Files with contents "a" and "aa": different contents whose two
concatenations coincide. -/
def fs5 : FS := fun n =>
  if n = str "a.js" then some ⟨strBytes "a", 1, false, false, false⟩
  else if n = str "b.js" then some ⟨strBytes "aa", 2, false, false, false⟩
  else none

/-- A filesystem that resolves the name "a/.." (whose base name is
"..") to a regular one-byte file. -/
def fs1c : FS := fun n =>
  if n = str "a/.." then some ⟨strBytes "x", 3, false, false, false⟩ else none

/-- A filesystem that resolves the name "a/." (whose base name is ".")
to a regular one-byte file. -/
def fs6c : FS := fun n =>
  if n = str "a/." then some ⟨strBytes "x", 3, false, false, false⟩ else none

/-- Files dir/a.js and b.js with contents "1" and "2". -/
def wfs6 : FS := fun n =>
  if n = str "dir/a.js" then some ⟨strBytes "1", 3, false, false, false⟩
  else if n = str "b.js" then some ⟨strBytes "2", 7, false, false, false⟩
  else none

/-- A single stylesheet s.css with content "1". -/
def wfs2 : FS := fun n =>
  if n = str "s.css" then some ⟨strBytes "1", 5, false, false, false⟩ else none

/-- The filesystem before the edit: a.css contains "1". -/
def nfs1 : FS := fun n =>
  if n = str "a.css" then some ⟨strBytes "1", 5, false, false, false⟩ else none

/-- The filesystem after the edit: a.css contains "2". -/
def nfs2 : FS := fun n =>
  if n = str "a.css" then some ⟨strBytes "2", 9, false, false, false⟩ else none

/-- A filesystem with no files at all. -/
def fs7 : FS := fun _ => none

/- ---------------------------------------------------------------
Claims.
---------------------------------------------------------------- -/

/-- C3: for every file list whose members all resolve, CombinedURL
succeeds, the digest used in the URL and as the cache key is the first
10 hexadecimal characters of the MD5 sum of the concatenation of the
file contents in list order, the new cache entry is keyed by exactly
that 10-character string, and the digest has length 10. -/
theorem digest_computation (fs : FS) (cache : Cache) (names : List Str)
    (h : ∀ n ∈ names, fileOk fs n = true) :
    CombinedURL fs cache names =
      (some (pathJoin [Path, digestOf fs names, joinBasenames names]),
       (digestOf fs names, ⟨concatContents fs names, maxMT fs names⟩) :: cache) ∧
      digestOf fs names = (md5hex ((names.map (fileContent fs)).flatten)).take 10 ∧
      (digestOf fs names).length = 10 :=
  ⟨combinedURL_ok cache h, rfl, digestOf_length fs names⟩

theorem digest_computation_witness :
    (∀ n ∈ [str "a.js", str "b.js"], fileOk wfs3 n = true) ∧
      CombinedURL wfs3 [] [str "a.js", str "b.js"] =
        (some (str "/static/c20ad4d76f/a.js-b.js"),
         [(str "c20ad4d76f", ⟨strBytes "12", 7⟩)]) :=
  ⟨by decide,
    ((digest_computation wfs3 [] [str "a.js", str "b.js"] (by decide)).1).trans (by decide)⟩

/-- C4: every request whose path lacks the static marker, or splits
into fewer than three segments, or whose digest segment is not a cache
key, gets status 404 with the no-cache headers and the fixed plaintext
body. -/
theorem handle_notFound (c : Cache) (m : Nat) (p : Str)
    (h : strStartsWith p Path = false ∨ (splitOnSlash p).length < 3 ∨
      cacheLookup c ((splitOnSlash p).getD 2 []) = none) :
    (Handle c m p).1 =
      { status := 404
        headers := [(str "Cache-Control", str "no-cache"), (str "Pragma", str "no-cache")]
        body := strBytes "static resource not found!" } := by
  simp only [Handle]
  rcases h with h | h | h
  · rw [if_neg (by simp [h])]
    rfl
  · by_cases h1 : strStartsWith p Path
    · rw [if_pos h1, if_pos h]
      rfl
    · rw [if_neg h1]
      rfl
  · by_cases h1 : strStartsWith p Path
    · rw [if_pos h1]
      by_cases h2 : (splitOnSlash p).length < 3
      · rw [if_pos h2]
        rfl
      · rw [if_neg h2, h]
        rfl
    · rw [if_neg h1]
      rfl

theorem handle_notFound_witness :
    (strStartsWith (str "/nope") Path = false ∨
      (splitOnSlash (str "/nope")).length < 3 ∨
      cacheLookup [] ((splitOnSlash (str "/nope")).getD 2 []) = none) ∧
      (Handle [] 0 (str "/nope")).1 =
        { status := 404
          headers := [(str "Cache-Control", str "no-cache"), (str "Pragma", str "no-cache")]
          body := strBytes "static resource not found!" } :=
  ⟨Or.inl (by decide), handle_notFound [] 0 (str "/nope") (Or.inl (by decide))⟩

/-- C5 (corrected): the claim that differing contents force differing
digests for the two orders fails, because the two concatenations can
coincide; contents "a" and "aa" give the same digest both ways. -/
theorem orderSensitivity_cex :
    fileContent fs5 (str "a.js") ≠ fileContent fs5 (str "b.js") ∧
      (CombinedURL fs5 [] [str "a.js", str "b.js"]).2 =
        [(str "47bce5c74f", ⟨strBytes "aaa", 2⟩)] ∧
      (CombinedURL fs5 [] [str "b.js", str "a.js"]).2 =
        [(str "47bce5c74f", ⟨strBytes "aaa", 2⟩)] :=
  ⟨by decide, by decide, by decide⟩

/-- C5 (amended): resolving the pair in the two orders yields
different digest keys whenever the truncated MD5 digests of the two
concatenations differ (differing contents alone do not suffice). -/
theorem orderSensitivity_amended (fs : FS) (cache : Cache) (a b : Str)
    (hok : ∀ n ∈ [a, b], fileOk fs n = true)
    (hne : (md5hex (fileContent fs a ++ fileContent fs b)).take 10 ≠
      (md5hex (fileContent fs b ++ fileContent fs a)).take 10) :
    ∃ u1 u2 e1 e2,
      CombinedURL fs cache [a, b] = (some u1, (digestOf fs [a, b], e1) :: cache) ∧
      CombinedURL fs cache [b, a] = (some u2, (digestOf fs [b, a], e2) :: cache) ∧
      digestOf fs [a, b] ≠ digestOf fs [b, a] := by
  have hok2 : ∀ n ∈ [b, a], fileOk fs n = true := by
    intro n hn
    apply hok
    rcases List.mem_cons.mp hn with rfl | hn2
    · simp
    · rcases List.mem_cons.mp hn2 with rfl | hn3
      · simp
      · simp at hn3
  refine ⟨_, _, _, _, combinedURL_ok cache hok, combinedURL_ok cache hok2, ?_⟩
  intro he
  apply hne
  have h1 : concatContents fs [a, b] = fileContent fs a ++ fileContent fs b := by
    simp [concatContents]
  have h2 : concatContents fs [b, a] = fileContent fs b ++ fileContent fs a := by
    simp [concatContents]
  unfold digestOf at he
  rw [h1, h2] at he
  exact he

theorem orderSensitivity_amended_witness :
    ((∀ n ∈ [str "a.js", str "b.js"], fileOk wfs3 n = true) ∧
      (md5hex (fileContent wfs3 (str "a.js") ++ fileContent wfs3 (str "b.js"))).take 10 ≠
        (md5hex (fileContent wfs3 (str "b.js") ++ fileContent wfs3 (str "a.js"))).take 10) ∧
      (∃ u1 u2 e1 e2,
        CombinedURL wfs3 [] [str "a.js", str "b.js"] =
          (some u1, (digestOf wfs3 [str "a.js", str "b.js"], e1) :: []) ∧
        CombinedURL wfs3 [] [str "b.js", str "a.js"] =
          (some u2, (digestOf wfs3 [str "b.js", str "a.js"], e2) :: []) ∧
        digestOf wfs3 [str "a.js", str "b.js"] ≠ digestOf wfs3 [str "b.js", str "a.js"]) :=
  ⟨⟨by decide, by decide⟩,
    orderSensitivity_amended wfs3 [] (str "a.js") (str "b.js") (by decide) (by decide)⟩

/-- C7: if any file of the list fails to open, stat or read, the whole
resolution fails (the error return is modelled by none in place of the
pair of the empty URL and the error) and the cache is left exactly as
it was. -/
theorem allOrNothing (fs : FS) (c : Cache) (names : List Str)
    (h : ∃ n ∈ names, fileOk fs n = false) :
    CombinedURL fs c names = (none, c) := by
  unfold CombinedURL
  rw [combinedRead_bad [] 0 h]

theorem allOrNothing_witness :
    (∃ n ∈ [str "nope.js"], fileOk fs7 n = false) ∧
      CombinedURL fs7 [(str "k", ⟨[], 0⟩)] [str "nope.js"] = (none, [(str "k", ⟨[], 0⟩)]) :=
  ⟨⟨str "nope.js", by decide⟩,
    allOrNothing fs7 [(str "k", ⟨[], 0⟩)] [str "nope.js"] ⟨str "nope.js", by decide⟩⟩

/-- C8: Handle returns the cache unchanged on every request, and a
resolution call either leaves the cache unchanged (on failure) or
conses exactly one new binding in front of it. -/
theorem handle_frame (c : Cache) (m : Nat) (p : Str) (fs : FS) (names : List Str) :
    (Handle c m p).2 = c ∧
      ((CombinedURL fs c names).2 = c ∨
        ∃ k e, (CombinedURL fs c names).2 = (k, e) :: c) := by
  constructor
  · simp only [Handle]
    by_cases h1 : strStartsWith p Path
    · rw [if_pos h1]
      by_cases h2 : (splitOnSlash p).length < 3
      · rw [if_pos h2]
      · rw [if_neg h2]
        cases cacheLookup c ((splitOnSlash p).getD 2 []) <;> rfl
    · rw [if_neg h1]
  · unfold CombinedURL
    cases combinedRead fs names [] 0 with
    | none => exact Or.inl rfl
    | some p2 =>
      obtain ⟨buf, mt⟩ := p2
      exact Or.inr ⟨_, _, rfl⟩

/-- C9: for two distinct request paths that both carry the static
marker and agree on the digest segment, Handle serves the same status
and the same body bytes; the trailing segments are never consulted. -/
theorem trailingCosmetic (c : Cache) (m : Nat) (p1 p2 : Str)
    (h1 : strStartsWith p1 Path = true) (h2 : strStartsWith p2 Path = true)
    (hne : p1 ≠ p2)
    (hd : (splitOnSlash p1).getD 2 [] = (splitOnSlash p2).getD 2 []) :
    (Handle c m p1).1.status = (Handle c m p2).1.status ∧
      (Handle c m p1).1.body = (Handle c m p2).1.body := by
  have hsplit : ∀ t : Str, splitOnSlash (Path ++ t) = [] :: str "static" :: splitOnSlash t := by
    intro t
    have he : Path ++ t = str "/static" ++ '/' :: t := rfl
    rw [he, splitOnSlash_append]
    have hs : splitOnSlash (str "/static") = [[], str "static"] := by decide
    rw [hs]
    rfl
  obtain ⟨t1, rfl⟩ := strStartsWith_exists h1
  obtain ⟨t2, rfl⟩ := strStartsWith_exists h2
  have hlen1 : ¬ (splitOnSlash (Path ++ t1)).length < 3 := by
    rw [hsplit]
    have := List.length_pos.mpr (splitOnSlash_ne_nil t1)
    simp
    omega
  have hlen2 : ¬ (splitOnSlash (Path ++ t2)).length < 3 := by
    rw [hsplit]
    have := List.length_pos.mpr (splitOnSlash_ne_nil t2)
    simp
    omega
  simp only [Handle]
  rw [if_pos h1, if_pos h2, if_neg hlen1, if_neg hlen2, hd]
  cases cacheLookup c ((splitOnSlash (Path ++ t2)).getD 2 []) <;> exact ⟨rfl, rfl⟩

theorem trailingCosmetic_witness :
    (strStartsWith (str "/static/abc/x.css") Path = true ∧
      strStartsWith (str "/static/abc/evil.js") Path = true ∧
      str "/static/abc/x.css" ≠ str "/static/abc/evil.js" ∧
      (splitOnSlash (str "/static/abc/x.css")).getD 2 [] =
        (splitOnSlash (str "/static/abc/evil.js")).getD 2 []) ∧
      ((Handle [(str "abc", ⟨strBytes "hi", 1⟩)] 4 (str "/static/abc/x.css")).1.status =
        (Handle [(str "abc", ⟨strBytes "hi", 1⟩)] 4 (str "/static/abc/evil.js")).1.status ∧
      (Handle [(str "abc", ⟨strBytes "hi", 1⟩)] 4 (str "/static/abc/x.css")).1.body =
        (Handle [(str "abc", ⟨strBytes "hi", 1⟩)] 4 (str "/static/abc/evil.js")).1.body) :=
  ⟨⟨by decide, by decide, by decide, by decide⟩,
    trailingCosmetic [(str "abc", ⟨strBytes "hi", 1⟩)] 4 (str "/static/abc/x.css")
      (str "/static/abc/evil.js") (by decide) (by decide) (by decide) (by decide)⟩

/-- C10: CombinedURL on the empty list succeeds: the URL embeds the
digest of the empty byte string (its first ten hex characters are
d41d8cd98f), the joined base name part is empty so the cleaned URL is
just the marker and the digest, and a cache entry with empty content
and the zero modification time is stored under that digest. -/
theorem emptyList (fs : FS) (c : Cache) :
    CombinedURL fs c [] =
      (some (str "/static/d41d8cd98f"), (str "d41d8cd98f", ⟨[], 0⟩) :: c) := rfl

/-- C1 (corrected): the round trip fails when the joined base names
form a dotdot segment, because path.Join cleans the dotdot away
together with the digest segment: resolving the name "a/.." yields the
URL "/static", which Handle answers with 404. -/
theorem roundTrip_cex :
    CombinedURL fs1c [] [str "a/.."] =
      (some (str "/static"), [(str "9dd4e46126", ⟨strBytes "x", 3⟩)]) ∧
      (Handle [(str "9dd4e46126", ⟨strBytes "x", 3⟩)] 60 (str "/static")).1.status = 404 :=
  ⟨by decide, by decide⟩

/-- C1 (amended): for every non-empty file list successfully resolved
by CombinedURL whose joined base names contain no dotdot segment, a
Handle request on the resulting cache whose path is exactly the
returned URL responds with status 200, exactly the concatenated bytes
that were hashed, and the Cache-Control header built from the
configured seconds. -/
theorem roundTrip_amended (fs : FS) (cache : Cache) (names : List Str) (m : Nat)
    (url : Str) (c1 : Cache)
    (hne : names ≠ [])
    (h : CombinedURL fs cache names = (some url, c1))
    (hdd : ['.', '.'] ∉ splitOnSlash (joinBasenames names)) :
    Handle c1 m url =
      ({ status := 200
         headers := [(str "Cache-Control", str "public, max-age=" ++ Nat.toDigits 10 m)]
         body := concatContents fs names }, c1) := by
  obtain ⟨hpre, hsplit, hc1⟩ := combinedURL_parts h hne hdd
  simp only [Handle]
  rw [if_pos hpre]
  have hlen : ¬ (splitOnSlash url).length < 3 := by
    rw [hsplit]
    simp
  rw [if_neg hlen]
  have hkey : (splitOnSlash url).getD 2 [] = digestOf fs names := by
    rw [hsplit]
    rfl
  rw [hkey, hc1]
  have hlook : cacheLookup
      ((digestOf fs names, ⟨concatContents fs names, maxMT fs names⟩) :: cache)
      (digestOf fs names) = some ⟨concatContents fs names, maxMT fs names⟩ := by
    simp [cacheLookup]
  rw [hlook]
  rfl

theorem roundTrip_amended_witness :
    (([str "a.js", str "b.js"] : List Str) ≠ [] ∧
      CombinedURL wfs3 [] [str "a.js", str "b.js"] =
        (some (str "/static/c20ad4d76f/a.js-b.js"),
         [(str "c20ad4d76f", ⟨strBytes "12", 7⟩)]) ∧
      ['.', '.'] ∉ splitOnSlash (joinBasenames [str "a.js", str "b.js"])) ∧
      Handle [(str "c20ad4d76f", ⟨strBytes "12", 7⟩)] 99 (str "/static/c20ad4d76f/a.js-b.js") =
        ({ status := 200
           headers := [(str "Cache-Control", str "public, max-age=" ++ Nat.toDigits 10 99)]
           body := concatContents wfs3 [str "a.js", str "b.js"] },
         [(str "c20ad4d76f", ⟨strBytes "12", 7⟩)]) :=
  ⟨⟨by decide, by decide, by decide⟩,
    roundTrip_amended wfs3 [] [str "a.js", str "b.js"] 99
      (str "/static/c20ad4d76f/a.js-b.js") [(str "c20ad4d76f", ⟨strBytes "12", 7⟩)]
      (by decide) (by decide) (by decide)⟩

/-- C2 (corrected): in the no-cache variant of the package the
dispatcher re-reads the file on every request, so a URL minted while
a.css contained "1" (digest c4ca4238a0, the digest of "1") serves the
bytes "2" after the file changes: the served content is not the
content whose hash produced the digest segment. -/
theorem contentAddressed_cex :
    NoCache.URL nfs1 (str "a.css") = some (str "/static/c4ca4238a0/a.css") ∧
      str "c4ca4238a0" = (md5hex (strBytes "1")).take 10 ∧
      (NoCache.Handle nfs2 60 (str "/static/c4ca4238a0/a.css")).status = 200 ∧
      (NoCache.Handle nfs2 60 (str "/static/c4ca4238a0/a.css")).body = strBytes "2" ∧
      strBytes "2" ≠ strBytes "1" :=
  ⟨by decide, by decide, by decide, by decide, by decide⟩

/-- C2 (amended): for the cached variant, a fetch of a produced URL at
any later time returns status 200 and exactly the hashed bytes,
provided the cache still answers the URL digest with the entry the
resolution stored (no later resolution overwrote that digest key) and
the joined base names contain no dotdot segment. -/
theorem contentAddressed_amended (fs : FS) (cache : Cache) (names : List Str) (m : Nat)
    (url : Str) (c1 c2 : Cache)
    (hne : names ≠ [])
    (h : CombinedURL fs cache names = (some url, c1))
    (hdd : ['.', '.'] ∉ splitOnSlash (joinBasenames names))
    (hpres : cacheLookup c2 (digestOf fs names) = cacheLookup c1 (digestOf fs names)) :
    (Handle c2 m url).1.status = 200 ∧
      (Handle c2 m url).1.body = concatContents fs names := by
  obtain ⟨hpre, hsplit, hc1⟩ := combinedURL_parts h hne hdd
  have hlook : cacheLookup c2 (digestOf fs names) =
      some ⟨concatContents fs names, maxMT fs names⟩ := by
    rw [hpres, hc1]
    simp [cacheLookup]
  simp only [Handle]
  rw [if_pos hpre]
  have hlen : ¬ (splitOnSlash url).length < 3 := by
    rw [hsplit]
    simp
  rw [if_neg hlen]
  have hkey : (splitOnSlash url).getD 2 [] = digestOf fs names := by
    rw [hsplit]
    rfl
  rw [hkey, hlook]
  exact ⟨rfl, rfl⟩

theorem contentAddressed_amended_witness :
    (([str "s.css"] : List Str) ≠ [] ∧
      CombinedURL wfs2 [] [str "s.css"] =
        (some (str "/static/c4ca4238a0/s.css"), [(str "c4ca4238a0", ⟨strBytes "1", 5⟩)]) ∧
      ['.', '.'] ∉ splitOnSlash (joinBasenames [str "s.css"]) ∧
      cacheLookup [(str "c4ca4238a0", ⟨strBytes "1", 5⟩)] (digestOf wfs2 [str "s.css"]) =
        cacheLookup [(str "c4ca4238a0", ⟨strBytes "1", 5⟩)] (digestOf wfs2 [str "s.css"])) ∧
      ((Handle [(str "c4ca4238a0", ⟨strBytes "1", 5⟩)] 7 (str "/static/c4ca4238a0/s.css")).1.status = 200 ∧
        (Handle [(str "c4ca4238a0", ⟨strBytes "1", 5⟩)] 7 (str "/static/c4ca4238a0/s.css")).1.body =
          concatContents wfs2 [str "s.css"]) :=
  ⟨⟨by decide, by decide, by decide, rfl⟩,
    contentAddressed_amended wfs2 [] [str "s.css"] 7 (str "/static/c4ca4238a0/s.css")
      [(str "c4ca4238a0", ⟨strBytes "1", 5⟩)] [(str "c4ca4238a0", ⟨strBytes "1", 5⟩)]
      (by decide) (by decide) (by decide) rfl⟩

/-- C6 (corrected): the returned URL is not always the marker followed
by the digest and the joined base names, because path.Join cleans the
joined string: the name "a/." has base name ".", which Clean removes,
so the URL carries no base name segment at all. -/
theorem urlShape_cex :
    CombinedURL fs6c [] [str "a/."] =
      (some (str "/static/9dd4e46126"), [(str "9dd4e46126", ⟨strBytes "x", 3⟩)]) ∧
      str "/static/9dd4e46126" ≠
        Path ++ digestOf fs6c [str "a/."] ++ ['/'] ++ joinBasenames [str "a/."] :=
  ⟨by decide, by decide⟩

/-- C6 (amended): whenever the hyphen-joined base names contain no
slash and are not empty, dot or dotdot, the URL returned by a
successful resolution is exactly the static marker, the ten-character
digest, a slash, and the joined base names in list order. -/
theorem urlShape_amended (fs : FS) (cache : Cache) (names : List Str) (url : Str)
    (c1 : Cache)
    (h : CombinedURL fs cache names = (some url, c1))
    (hj0 : '/' ∉ joinBasenames names)
    (hj1 : joinBasenames names ≠ [])
    (hj2 : joinBasenames names ≠ ['.'])
    (hj3 : joinBasenames names ≠ ['.', '.']) :
    url = Path ++ digestOf fs names ++ ['/'] ++ joinBasenames names := by
  obtain ⟨hu, _⟩ := combinedURL_some h
  subst hu
  have hsplitj : splitOnSlash (joinBasenames names) = [joinBasenames names] :=
    splitOnSlash_no_slash hj0
  have hdd : ['.', '.'] ∉ splitOnSlash (joinBasenames names) := by
    rw [hsplitj]
    intro he
    rcases List.mem_cons.mp he with he | he
    · exact hj3 he.symm
    · simp at he
  rw [pathJoin_static (digestOf_ne_nil fs names) (digestOf_no_slash fs names)
    (digestOf_ne_dot fs names) (digestOf_ne_dotdot fs names) hj1 hdd]
  rw [hsplitj, cleanKeep_cons,
    if_neg (by rintro (he | he) <;> [exact hj1 he; exact hj2 he]), cleanKeep_nil]
  rw [strJoin, strJoin, strJoin, Path_cons]
  simp

theorem urlShape_amended_witness :
    (CombinedURL wfs6 [] [str "dir/a.js", str "b.js"] =
        (some (str "/static/c20ad4d76f/a.js-b.js"),
         [(str "c20ad4d76f", ⟨strBytes "12", 7⟩)]) ∧
      '/' ∉ joinBasenames [str "dir/a.js", str "b.js"] ∧
      joinBasenames [str "dir/a.js", str "b.js"] ≠ [] ∧
      joinBasenames [str "dir/a.js", str "b.js"] ≠ ['.'] ∧
      joinBasenames [str "dir/a.js", str "b.js"] ≠ ['.', '.']) ∧
      str "/static/c20ad4d76f/a.js-b.js" =
        Path ++ digestOf wfs6 [str "dir/a.js", str "b.js"] ++ ['/'] ++
          joinBasenames [str "dir/a.js", str "b.js"] :=
  ⟨⟨by decide, by decide, by decide, by decide, by decide⟩,
    urlShape_amended wfs6 [] [str "dir/a.js", str "b.js"]
      (str "/static/c20ad4d76f/a.js-b.js") [(str "c20ad4d76f", ⟨strBytes "12", 7⟩)]
      (by decide) (by decide) (by decide) (by decide) (by decide)⟩

end Static

